import Mathlib

/-!
Verification of the diagnostics-to-patch pipeline of the obs-plugin-prompt-helper
extension, shallowly embedded in Lean.

File contents are modelled as lists of characters (`Str`), mirroring TypeScript
strings; `String.includes` becomes list-infix, `String.split('\n')` / `join('\n')`
become `splitLines` / `joinLines`, and the file system becomes an association
list from paths to contents.
-/

/-- Characters of a TypeScript string. -/
abbrev Str := List Char

/-- Embeds `haystack.includes(needle)` from TypeScript: substring test. -/
def containsStr (hay pat : Str) : Bool :=
  decide (pat <:+: hay)

/-- Embeds `s.startsWith(p)` from TypeScript: prefix test. -/
def startsWithStr (s p : Str) : Bool :=
  decide (p <+: s)

/-- Embeds `s.trim()`: strips leading and trailing whitespace. -/
def trimStr (s : Str) : Str :=
  (s.dropWhile Char.isWhitespace).reverse.dropWhile Char.isWhitespace |>.reverse

/-- Embeds `s.split('\n')`: splits at every newline, keeping empty pieces. -/
def splitLines : Str → List Str
  | [] => [[]]
  | c :: rest =>
    if c = '\n' then [] :: splitLines rest
    else
      match splitLines rest with
      | l :: ls => (c :: l) :: ls
      | [] => [[c]]

/-- Embeds `lines.join('\n')`: interleaves a newline between the pieces. -/
def joinLines : List Str → Str
  | [] => []
  | [l] => l
  | l :: ls => l ++ '\n' :: joinLines ls

/-!
Embedding of `LogParser` (src/src/core/LogParser.ts).

The four entries of `errorPatterns` are anchored `^...$` with the `gm` flags,
and `.` never matches a newline, so running `exec` repeatedly over the whole
log is the same as matching each line of the log once.  Each matcher below
returns the JavaScript match array (full match followed by the capture
groups) exactly as the regex engine produces it: the leading lazy group
`(.+?)` takes the shortest prefix such that the rest of the line matches,
greedy `\d+` and `\s*` runs are maximal (followed by a character they cannot
consume, except for a final `\s*(.+)$` where `\s*` gives one character back
when the remainder is all whitespace).
-/
/-- Maximal run of decimal digits from the front: the greedy `\d+`/`\d*`. -/
def takeDigits (s : Str) : Str × Str :=
  (s.takeWhile Char.isDigit, s.dropWhile Char.isDigit)

/-- Embeds a final `\s*(.+)$`: the message group, or none when the rest of the
line is empty.  When the rest is all whitespace the `\s*` run backtracks by one
character so that `.+` can take it. -/
def wsThenRest (r : Str) : Option Str :=
  let s := r.dropWhile Char.isWhitespace
  if s ≠ [] then some s
  else
    match r.getLast? with
    | some ch => some [ch]
    | none => none

/-- Strips a literal prefix, or fails. -/
def stripLit (s p : Str) : Option Str :=
  if p <+: s then some (s.drop p.length) else none

/-- Tries each literal of `alts` in order as a prefix: the regex alternation
`(error|warning|note)` and friends. -/
def matchAlts (s : Str) : List Str → Option (Str × Str)
  | [] => none
  | a :: rest =>
    match stripLit s a with
    | some r => some (a, r)
    | none => matchAlts s rest

/-- Searches the split positions of a leading lazy group `(.+?)` followed by a
one-character separator, shortest first; the group must be nonempty and the
whole tail after the separator must satisfy `tailMatch`. -/
def lazySplitAux (sep : Char) (tailMatch : Str → Option β) : Str → Option (Str × β)
  | [] => none
  | ch :: rest =>
    match (if ch = sep then tailMatch rest else none) with
    | some b => some ([], b)
    | none =>
      match lazySplitAux sep tailMatch rest with
      | some (f, b) => some (ch :: f, b)
      | none => none

/-- Shortest-first split with a nonempty lazy group before the separator. -/
def lazySplit1 (sep : Char) (tailMatch : Str → Option β) : Str → Option (Str × β)
  | [] => none
  | ch :: rest =>
    match lazySplitAux sep tailMatch rest with
    | some (f, b) => some (ch :: f, b)
    | none => none

def sevErrorLit : Str := "error".data

def sevWarningLit : Str := "warning".data

def sevNoteLit : Str := "note".data

def undefinedRefLit : Str := "undefined reference to".data

def cmakeErrorAtLit : Str := "CMake Error at ".data

/-- Tail of the GCC/Clang pattern after `file:`, embedding
`(\d+):(\d+):\s*(error|warning|note):\s*(.+)$`. -/
def gccTail (t : Str) : Option (Str × Str × Str × Str) :=
  let (d1, t1) := takeDigits t
  if d1 = [] then none else
  match t1 with
  | ':' :: t2 =>
    let (d2, t3) := takeDigits t2
    if d2 = [] then none else
    match t3 with
    | ':' :: t4 =>
      match matchAlts (t4.dropWhile Char.isWhitespace) [sevErrorLit, sevWarningLit, sevNoteLit] with
      | some (sev, t5) =>
        match t5 with
        | ':' :: t6 =>
          match wsThenRest t6 with
          | some msg => some (d1, d2, sev, msg)
          | none => none
        | _ => none
      | none => none
    | _ => none
  | _ => none

/-- GCC/Clang matcher `^(.+?):(\d+):(\d+):\s*(error|warning|note):\s*(.+)$`,
returning the JavaScript match array (length 6). -/
def matchGcc (line : Str) : Option (List Str) :=
  match lazySplit1 ':' gccTail line with
  | some (file, (d1, d2, sev, msg)) => some [line, file, d1, d2, sev, msg]
  | none => none

/-- Tail of the MSVC pattern after `file(`, embedding
`(\d+),(\d+)\):\s*(error|warning)\s*C\d+:\s*(.+)$`. -/
def msvcTail (t : Str) : Option (Str × Str × Str × Str) :=
  let (d1, t1) := takeDigits t
  if d1 = [] then none else
  match t1 with
  | ',' :: t2 =>
    let (d2, t3) := takeDigits t2
    if d2 = [] then none else
    match t3 with
    | ')' :: ':' :: t4 =>
      match matchAlts (t4.dropWhile Char.isWhitespace) [sevErrorLit, sevWarningLit] with
      | some (sev, t5) =>
        match t5.dropWhile Char.isWhitespace with
        | 'C' :: t6 =>
          let (dc, t7) := takeDigits t6
          if dc = [] then none else
          match t7 with
          | ':' :: t8 =>
            match wsThenRest t8 with
            | some msg => some (d1, d2, sev, msg)
            | none => none
          | _ => none
        | _ => none
      | none => none
    | _ => none
  | _ => none

/-- MSVC matcher `^(.+?)\((\d+),(\d+)\):\s*(error|warning)\s*C\d+:\s*(.+)$`,
returning the JavaScript match array (length 6). -/
def matchMsvc (line : Str) : Option (List Str) :=
  match lazySplit1 '(' msvcTail line with
  | some (file, (d1, d2, sev, msg)) => some [line, file, d1, d2, sev, msg]
  | none => none

/-- Inner lazy context group of the CMake pattern: `(.+?)\):\s*(.+)$`,
shortest context first. -/
def cmakeCtxAux (t : Str) : Option (Str × Str) :=
  match t with
  | [] => none
  | ch :: rest =>
    match rest with
    | ')' :: ':' :: r2 =>
      match wsThenRest r2 with
      | some msg => some ([ch], msg)
      | none =>
        match cmakeCtxAux rest with
        | some (ctx, msg) => some (ch :: ctx, msg)
        | none => none
    | _ =>
      match cmakeCtxAux rest with
      | some (ctx, msg) => some (ch :: ctx, msg)
      | none => none

/-- Tail of the CMake pattern after `file:`, embedding `(\d+)\s*\((.+?)\):\s*(.+)$`. -/
def cmakeTail (t : Str) : Option (Str × Str × Str) :=
  let (d1, t1) := takeDigits t
  if d1 = [] then none else
  match t1.dropWhile Char.isWhitespace with
  | '(' :: t2 =>
    match cmakeCtxAux t2 with
    | some (ctx, msg) => some (d1, ctx, msg)
    | none => none
  | _ => none

/-- CMake matcher `^CMake Error at (.+?):(\d+)\s*\((.+?)\):\s*(.+)$`,
returning the JavaScript match array (length 5). -/
def matchCMake (line : Str) : Option (List Str) :=
  match stripLit line cmakeErrorAtLit with
  | some afterLit =>
    match lazySplit1 ':' cmakeTail afterLit with
    | some (file, (d1, ctx, msg)) => some [line, file, d1, ctx, msg]
    | none => none
  | none => none

/-- Tail of the linker pattern after `file:`, embedding
`(\d+):\s*undefined reference to\s*(.+)$`. -/
def linkerTail (t : Str) : Option (Str × Str) :=
  let (d1, t1) := takeDigits t
  if d1 = [] then none else
  match t1 with
  | ':' :: t2 =>
    match stripLit (t2.dropWhile Char.isWhitespace) undefinedRefLit with
    | some t3 =>
      match wsThenRest t3 with
      | some sym => some (d1, sym)
      | none => none
    | none => none
  | _ => none

/-- Linker matcher `^(.+?):(\d+):\s*undefined reference to\s*(.+)$`,
returning the JavaScript match array (length 4: only three capture groups). -/
def matchLinker (line : Str) : Option (List Str) :=
  match lazySplit1 ':' linkerTail line with
  | some (file, (d1, sym)) => some [line, file, d1, sym]
  | none => none

/-- The ordered `errorPatterns` table of the constructor. -/
def errorPatterns : List (Str → Option (List Str)) :=
  [matchGcc, matchMsvc, matchCMake, matchLinker]

/-!
Data model of `LogParser` (BuildError, ConventionViolation from
src/src/types/ObsConfig.ts) and the Node `path` helpers the parser calls.
-/
/-- Severity after `normalizeSeverity`. -/
inductive Severity where
  | error
  | warning
  | info
deriving DecidableEq, Repr

/-- ConventionViolation: kind (a string in the source), suggestion text and
the auto-fixable flag. -/
structure ConventionViolation where
  vtype : String
  suggestion : String
  auto_fixable : Bool
deriving DecidableEq, Repr

/-- BuildError as produced by `createBuildError`. -/
structure BuildError where
  file : String
  line : Nat
  column : Nat
  severity : Severity
  message : String
  raw : String
  convention_violation : Option ConventionViolation
deriving DecidableEq, Repr

/-- Embeds Node `path.basename` (posix): the part after the last slash. -/
def basenameStr (p : Str) : Str :=
  ((p.reverse.takeWhile (fun c => c ≠ '/')) ).reverse

/-- Embeds Node `path.extname` (posix): from the last dot of the basename,
empty when there is no dot or the only dot starts the basename. -/
def extnameStr (p : Str) : Str :=
  let b := basenameStr p
  let tailPart := b.reverse.takeWhile (fun c => c ≠ '.')
  if tailPart.length = b.length then []
  else if tailPart.length + 1 = b.length then []
  else '.' :: tailPart.reverse

/-- Embeds `path.parse(p).name`: the basename with its extension removed. -/
def parseNameStr (p : Str) : Str :=
  let b := basenameStr p
  b.take (b.length - (extnameStr p).length)

/-- Embeds Node `path.posix.normalize`: resolves `.` and `..` segments,
collapses repeated slashes, keeps a trailing slash, returns `.` for an
empty result. -/
def pathNormalize (p : Str) : Str :=
  if p = [] then ".".data else
  let isAbs := p.head? = some '/'
  let hasTrail := p.getLast? = some '/'
  let segs := p.splitOn '/'
  let kept := segs.foldl
    (fun acc s =>
      if s = [] ∨ s = ".".data then acc
      else if s = "..".data then
        if acc ≠ [] ∧ acc.getLast? ≠ some "..".data then acc.dropLast
        else if isAbs then acc else acc ++ [s]
      else acc ++ [s]) []
  let joined := List.intercalate "/".data kept
  if joined = [] then
    (if isAbs then "/".data else if hasTrail then "./".data else ".".data)
  else
    (if isAbs then '/' :: joined else joined) ++ (if hasTrail then "/".data else [])

/-- Embeds `parseInt` on the digit strings captured by `\d+`. -/
def parseIntNat (s : Str) : Nat :=
  s.foldl (fun n c => n * 10 + (c.toNat - '0'.toNat)) 0

/-- Embeds `s.toLowerCase()`. -/
def toLowerStr (s : Str) : Str :=
  s.map Char.toLower

/-- Embeds `normalizeSeverity`: substring test on the lower-cased text. -/
def normalizeSeverity (sev : Str) : Severity :=
  let lower := toLowerStr sev
  if containsStr lower sevErrorLit then Severity.error
  else if containsStr lower sevWarningLit then Severity.warning
  else Severity.info

/-- Searches for an occurrence of `lit` anywhere in `s` whose tail satisfies
`k`: the unanchored part of a regex `test`. -/
def existsOccur (s lit : Str) (k : Str → Bool) : Bool :=
  (List.range (s.length + 1)).any
    (fun i => startsWithStr (s.drop i) lit && k ((s.drop i).drop lit.length))

def fatalErrorLit : Str := "fatal error: '".data

def fileNotFoundLit : Str := "' file not found".data

def errorQuoteLit : Str := "error: '".data

def shouldUseHppLit : Str := "' should use '.hpp' extension".data

def uiComponentLit : Str := "error: UI component '".data

def shouldBeInUiLit : Str := "' should be in 'ui/' directory".data

def undefRefQtLit : Str := "error: undefined reference to".data

def qtLit : Str := "Qt".data

def metaLit : Str := "meta".data

def objectLit : Str := "object".data

def dotHpLit : Str := ".hp".data

def dotHppLit : Str := ".hpp".data

def dotHLit : Str := ".h".data

/-- Group `(.+\.hpp?)`: at least one dot-matched character, then `.hp` or
`.hpp`; `.` never matches a newline. -/
def hppGroupOk (s : Str) : Bool :=
  decide ('\n' ∉ s) &&
    ((decide (dotHppLit <:+ s) && decide (5 ≤ s.length)) ||
      (decide (dotHpLit <:+ s) && decide (4 ≤ s.length)))

/-- Group `(.+\.h)`. -/
def hGroupOk (s : Str) : Bool :=
  decide ('\n' ∉ s) && decide (dotHLit <:+ s) && decide (3 ≤ s.length)

/-- Group `(.+)` inside one line. -/
def anyGroupOk (s : Str) : Bool :=
  decide ('\n' ∉ s) && decide (1 ≤ s.length)

/-- Splits `r` into a group and a literal suffix in every possible way:
the existence semantics of `test` for `(group)literal`. -/
def groupThenLit (r : Str) (groupOk : Str → Bool) (lit : Str) : Bool :=
  (List.range (r.length + 1)).any
    (fun j => groupOk (r.take j) && startsWithStr (r.drop j) lit)

/-- Embeds `conventionPatterns` entry `missing_pragma_once`:
`/fatal error: '(.+\.hpp?)' file not found/.test(msg)`. -/
def testMissingPragma (msg : Str) : Bool :=
  existsOccur msg fatalErrorLit (fun r => groupThenLit r hppGroupOk fileNotFoundLit)

/-- Embeds `conventionPatterns` entry `wrong_header_extension`:
`/error: '(.+\.h)' should use '\.hpp' extension/.test(msg)`. -/
def testWrongHeaderExt (msg : Str) : Bool :=
  existsOccur msg errorQuoteLit (fun r => groupThenLit r hGroupOk shouldUseHppLit)

/-- Embeds `conventionPatterns` entry `ui_component_location`:
`/error: UI component '(.+)' should be in 'ui\/' directory/.test(msg)`. -/
def testUiComponentLoc (msg : Str) : Bool :=
  existsOccur msg uiComponentLit (fun r => groupThenLit r anyGroupOk shouldBeInUiLit)

/-- First position where `p` is a prefix of a tail of `s`. -/
def findSub (s p : Str) : Option Nat :=
  (List.range (s.length + 1)).find? (fun i => startsWithStr (s.drop i) p)

/-- Ordered occurrence of several literals, the `a.*b.*c` shape. -/
def seqContains : Str → List Str → Bool
  | _, [] => true
  | s, p :: ps =>
    match findSub s p with
    | some k => seqContains (s.drop (k + p.length)) ps
    | none => false

/-- Embeds `conventionPatterns` entry `moc_include_missing`:
`/error: undefined reference to.*Qt.*meta.*object/.test(msg)`; the dots stop
at a newline. -/
def testMocIncludeMissing (msg : Str) : Bool :=
  existsOccur msg undefRefQtLit
    (fun r => seqContains (r.takeWhile (fun c => c ≠ '\n')) [qtLit, metaLit, objectLit])

/-!
`createBuildError`, `detectConventionViolation`, `createConventionViolation`
and `parseErrors` from src/src/core/LogParser.ts, lines 36-188.
-/
def missingPragmaKey : String := "missing_pragma_once"

def wrongHeaderKey : String := "wrong_header_extension"

def uiComponentKey : String := "ui_component_location"

def mocIncludeKey : String := "moc_include_missing"

def fallbackSuggestion : String := "Follow OBS plugin coding conventions"

/-- Embeds the `suggestions` record of `createConventionViolation` with its
`|| 'Follow OBS plugin coding conventions'` fallback. -/
def conventionSuggestion (ty : String) (file : Str) : String :=
  if ty = missingPragmaKey then
    "Add '#pragma once' at the beginning of " ++ String.mk (basenameStr file)
  else if ty = wrongHeaderKey then
    "Rename " ++ String.mk (basenameStr file) ++ " to use .hpp extension"
  else if ty = uiComponentKey then
    "Move " ++ String.mk (basenameStr file) ++ " to the ui/ directory"
  else if ty = mocIncludeKey then
    "Include moc_" ++ String.mk (parseNameStr file) ++ ".cpp in the implementation file"
  else fallbackSuggestion

/-- Embeds the `autoFixable` record of `createConventionViolation` with its
`|| false` fallback. -/
def conventionAutoFixable (ty : String) : Bool :=
  if ty = missingPragmaKey then true
  else if ty = wrongHeaderKey then true
  else if ty = uiComponentKey then false
  else if ty = mocIncludeKey then true
  else false

/-- Embeds `createConventionViolation` (LogParser.ts lines 168-188); the
message argument is unused by the source too. -/
def createConventionViolation (ty : String) (_message : Str) (file : Str) :
    ConventionViolation :=
  { vtype := ty
    suggestion := conventionSuggestion ty file
    auto_fixable := conventionAutoFixable ty }

/-- The `conventionPatterns` map in constructor order. -/
def conventionPatterns : List (String × (Str → Bool)) :=
  [(missingPragmaKey, testMissingPragma),
    (wrongHeaderKey, testWrongHeaderExt),
    (uiComponentKey, testUiComponentLoc),
    (mocIncludeKey, testMocIncludeMissing)]

/-- Embeds `detectConventionViolation`: first matching pattern wins. -/
def detectConventionViolation (message file : Str) : Option ConventionViolation :=
  (conventionPatterns.find? (fun e => e.2 message)).map
    (fun e => createConventionViolation e.1 message file)

/-- Embeds `createBuildError` (LogParser.ts lines 111-151): dispatch on the
length of the JavaScript match array.  A match array shorter than 5 entries
(the linker pattern produces 4) yields `null`. -/
def createBuildError (m : List Str) (_cmakePreset : String) : Option BuildError :=
  if 6 ≤ m.length then
    let file := pathNormalize (m.getD 1 [])
    let lineN := parseIntNat (m.getD 2 [])
    let colN := parseIntNat (m.getD 3 [])
    let message := m.getD 5 []
    some
      { file := String.mk file
        line := if lineN = 0 then 1 else lineN
        column := if colN = 0 then 1 else colN
        severity := normalizeSeverity (m.getD 4 [])
        message := String.mk (trimStr message)
        raw := String.mk (m.getD 0 [])
        convention_violation := detectConventionViolation message file }
  else if 5 ≤ m.length then
    let file := pathNormalize (m.getD 1 [])
    let lineN := parseIntNat (m.getD 2 [])
    let message := m.getD 4 []
    some
      { file := String.mk file
        line := if lineN = 0 then 1 else lineN
        column := 1
        severity := normalizeSeverity (m.getD 3 [])
        message := String.mk (trimStr message)
        raw := String.mk (m.getD 0 [])
        convention_violation := detectConventionViolation message file }
  else none

/-- The comparator of `parseErrors` (`localeCompare` on files, then line
difference), as the order it sorts into. -/
def errLE (a b : BuildError) : Prop :=
  a.file < b.file ∨ (a.file = b.file ∧ a.line ≤ b.line)

instance : DecidableRel errLE := fun a b => by
  unfold errLE
  infer_instance

instance : IsTotal BuildError errLE where
  total a b := by
    unfold errLE
    rcases lt_trichotomy a.file b.file with h | h | h
    · exact Or.inl (Or.inl h)
    · rcases Nat.le_total a.line b.line with h1 | h1
      · exact Or.inl (Or.inr ⟨h, h1⟩)
      · exact Or.inr (Or.inr ⟨h.symm, h1⟩)
    · exact Or.inr (Or.inl h)

instance : IsTrans BuildError errLE where
  trans a b c hab hbc := by
    unfold errLE at hab hbc ⊢
    rcases hab with h1 | ⟨h1, h2⟩
    · rcases hbc with h3 | ⟨h3, _⟩
      · exact Or.inl (h1.trans h3)
      · exact Or.inl (h3 ▸ h1)
    · rcases hbc with h3 | ⟨h3, h4⟩
      · exact Or.inl (h1 ▸ h3)
      · exact Or.inr ⟨h1.trans h3, h2.trans h4⟩

/-- Embeds `parseErrors` (LogParser.ts lines 36-59): every pattern is run over
the whole log, matches are turned into `BuildError`s, and the list is sorted
by the comparator. -/
def parseErrors (logOutput : String) (cmakePreset : String) : List BuildError :=
  let collected := errorPatterns.flatMap
    (fun pat => (splitLines logOutput.data).filterMap pat)
  let errors := collected.filterMap (fun m => createBuildError m cmakePreset)
  List.insertionSort errLE errors

/-!
`validateConventions` and its helpers (LogParser.ts lines 64-106, 203-243).
-/
def pragmaOnceLit : Str := "#pragma once".data

def uiDirLit : Str := "/ui/".data

/-- The `uiIndicators` list of `isUIComponent`. -/
def uiIndicators : List Str :=
  ["QWidget".data, "QDialog".data, "QMainWindow".data, "QFrame".data,
    "obs_frontend".data, "ui_".data, "Widget".data, "Dialog".data]

/-- The `qtIndicators` list of `isQtComponent`. -/
def qtIndicators : List Str :=
  ["Q_OBJECT".data, "signals:".data, "slots:".data, "emit ".data,
    "connect(".data, "QObject".data]

/-- Embeds `isUIComponent`: an indicator occurs in the content, or in the
lower-cased file name. -/
def isUIComponent (fileName content : Str) : Bool :=
  uiIndicators.any (fun ind =>
    containsStr content ind || containsStr (toLowerStr fileName) (toLowerStr ind))

/-- Embeds `isQtComponent`. -/
def isQtComponent (content : Str) : Bool :=
  qtIndicators.any (fun ind => containsStr content ind)

/-- The `#include "moc_<name>.cpp"` line generated for a path, shared by
`hasMocInclude` and `applyConventionFix`. -/
def mocIncludeOf (p : Str) : Str :=
  "#include \"moc_".data ++ parseNameStr p ++ ".cpp\"".data

/-- Embeds `hasMocInclude`. -/
def hasMocInclude (content fileName : Str) : Bool :=
  containsStr content (mocIncludeOf fileName)

/-- Embeds `validateConventions` (LogParser.ts lines 64-106): the four checks
in source order, each pushing one violation. -/
def validateConventions (filePath content : Str) : List ConventionViolation :=
  let fileName := basenameStr filePath
  let fileExt := extnameStr filePath
  (if fileExt = dotHLit then
    [{ vtype := wrongHeaderKey
       suggestion := "Use .hpp extension instead of .h for C++ headers"
       auto_fixable := true }]
  else []) ++
  (if fileExt = dotHppLit && !containsStr content pragmaOnceLit then
    [{ vtype := missingPragmaKey
       suggestion := "Add '#pragma once' at the beginning of the header file"
       auto_fixable := true }]
  else []) ++
  (if isUIComponent fileName content && !containsStr filePath uiDirLit then
    [{ vtype := uiComponentKey
       suggestion := "Move UI component '" ++ String.mk fileName ++ "' to the 'ui/' directory"
       auto_fixable := false }]
  else []) ++
  (if isQtComponent content && !hasMocInclude content fileName then
    [{ vtype := mocIncludeKey
       suggestion := "Include 'moc_" ++ String.mk (parseNameStr fileName) ++ ".cpp' for Qt6 signal support"
       auto_fixable := true }]
  else [])

/-!
`PatchGenerator` (src/src/core/LogParser.ts, second module, lines 255-621).
The file system is an association list from paths to contents; the two
external effects — the VCS `git apply` call and the workspace root — enter as
parameters (`git`, `ws`), matching the spec's capability boundary for shell
invocations.  `git add`/`git commit` of `autoCommit` are summarised by the
`committed` flag of the result: the claims speak only of whether a commit
happens, not of its content.
-/
inductive PatchType where
  | unified_diff
  | edit_instructions
deriving DecidableEq, Repr

inductive ValidationStatus where
  | pending
  | valid
  | invalid
deriving DecidableEq, Repr

structure PatchOperation where
  ptype : PatchType
  content : String
  target_files : List String
  validation_status : ValidationStatus
  convention_compliance : Bool
  auto_commit : Bool
deriving DecidableEq, Repr

/-- An in-memory file system: path to content, first binding wins. -/
abbrev FS := List (String × String)

def fsRead (fs : FS) (p : String) : Option String :=
  (fs.find? (fun e => e.1 == p)).map (fun e => e.2)

def fsErase (fs : FS) (p : String) : FS :=
  fs.filter (fun e => e.1 != p)

def fsWrite (fs : FS) (p c : String) : FS :=
  (p, c) :: fsErase fs p

/-- Embeds `fs.existsSync`. -/
def fsExists (fs : FS) (p : String) : Bool :=
  (fsRead fs p).isSome

def atAtLit : Str := "@@".data

def dashesLit : Str := "---".data

def plusesLit : Str := "+++".data

/-- Embeds `detectPatchType` (LogParser.ts lines 566-571). -/
def detectPatchType (content : Str) : PatchType :=
  if containsStr content atAtLit && containsStr content dashesLit
      && containsStr content plusesLit then
    PatchType.unified_diff
  else PatchType.edit_instructions

/-- Embeds `generatePatch` (lines 261-281); the generated id is irrelevant to
the claims and not modelled. -/
def generatePatch (suggestion : String) (targetFiles : List String)
    (conventionCompliant : Bool) : PatchOperation :=
  { ptype := detectPatchType suggestion.data
    content := suggestion
    target_files := targetFiles
    validation_status := ValidationStatus.pending
    convention_compliance := conventionCompliant
    auto_commit := conventionCompliant }

/-- Embeds `isValidUnifiedDiff` (lines 576-581): some line starts with each
of the three markers. -/
def isValidUnifiedDiff (content : Str) : Bool :=
  let lines := splitLines content
  lines.any (fun l => startsWithStr l atAtLit) &&
    lines.any (fun l => startsWithStr l dashesLit) &&
    lines.any (fun l => startsWithStr l plusesLit)

/-- Embeds `validatePatch` (lines 406-427): every target file must exist, and
a unified diff must carry the three markers; the convention-compliance branch
only logs.  The source's `reason` string is dropped: only validity matters to
the callers. -/
def validatePatch (fs : FS) (p : PatchOperation) : Bool :=
  p.target_files.all (fun f => fsExists fs f) &&
    (if p.ptype = PatchType.unified_diff then isValidUnifiedDiff p.content.data else true)

def tempPatchName : String := ".temp_patch.diff"

/-- Embeds `applyUnifiedDiff` (lines 432-457): no workspace root means
failure; otherwise the patch text is written to the scratch file, `git apply`
runs (the `git` parameter returns the new file system, or none on a non-zero
exit), and the scratch file is removed on both exits of the `finally`. -/
def applyUnifiedDiff (ws : Option String) (git : FS → String → Option FS)
    (fs : FS) (p : PatchOperation) : Bool × FS :=
  match ws with
  | none => (false, fs)
  | some root =>
    let tmp := root ++ "/" ++ tempPatchName
    let fs1 := fsWrite fs tmp p.content
    match git fs1 tmp with
    | some fs2 => (true, fsErase fs2 tmp)
    | none => (false, fsErase fs1 tmp)

/-- Embeds `applyEditInstructions` (lines 462-479) together with the source's
placeholder `applyEditInstruction`, which logs and returns true without
touching any file. -/
def applyEditInstructions (fs : FS) (_p : PatchOperation) : Bool × FS :=
  (true, fs)

/-- Result of `applyPatch`: the returned boolean, the file system, the patch
with its mutated `validation_status`, and whether `autoCommit` ran. -/
structure ApplyResult where
  success : Bool
  fs : FS
  patch : PatchOperation
  committed : Bool
deriving DecidableEq, Repr

/-- Embeds `applyPatch` (lines 297-334): validate, dispatch on the type,
set the status, auto-commit on success when both flags hold. -/
def applyPatch (ws : Option String) (git : FS → String → Option FS)
    (fs : FS) (p : PatchOperation) : ApplyResult :=
  if validatePatch fs p = false then
    { success := false, fs := fs, patch := p, committed := false }
  else
    let r :=
      if p.ptype = PatchType.unified_diff then applyUnifiedDiff ws git fs p
      else applyEditInstructions fs p
    if r.1 then
      { success := true
        fs := r.2
        patch := { p with validation_status := ValidationStatus.valid }
        committed := p.auto_commit && p.convention_compliance }
    else
      { success := false
        fs := r.2
        patch := { p with validation_status := ValidationStatus.invalid }
        committed := false }

/-!
`autoFixConventions` and `applyConventionFix` (lines 339-371 and 484-517).
-/
def slashSlashLit : Str := "//".data

def slashStarLit : Str := "/*".data

/-- One line the `missing_pragma_once` insertion loop skips: its trimmed text
starts a comment or is empty. -/
def isLeadingSkippable (l : Str) : Bool :=
  let t := trimStr l
  startsWithStr t slashSlashLit || startsWithStr t slashStarLit || t.isEmpty

/-- The `insertIndex` loop of `applyConventionFix`. -/
def skipIdx : List Str → Nat
  | [] => 0
  | l :: ls => if isLeadingSkippable l then skipIdx ls + 1 else 0

/-- The `missing_pragma_once` branch: splice `'#pragma once', ''` after the
leading comment block. -/
def insertPragma (content : Str) : Str :=
  let lines := splitLines content
  let i := skipIdx lines
  joinLines (lines.take i ++ [pragmaOnceLit, []] ++ lines.drop i)

/-- Result of `applyConventionFix`. -/
structure FixResult where
  success : Bool
  content : Str
deriving DecidableEq, Repr

/-- Embeds `applyConventionFix` (lines 484-517): the two directive-insertion
kinds transform the text when the directive is absent; every other kind falls
through to `{success: false}`. -/
def applyConventionFix (content : Str) (v : ConventionViolation) (filePath : Str) :
    FixResult :=
  if v.vtype = missingPragmaKey then
    if containsStr content pragmaOnceLit then { success := false, content := content }
    else { success := true, content := insertPragma content }
  else if v.vtype = mocIncludeKey then
    let inc := mocIncludeOf filePath
    if containsStr content inc then { success := false, content := content }
    else { success := true, content := content ++ '\n' :: (inc ++ ['\n']) }
  else { success := false, content := content }

/-- One iteration of the loop of `autoFixConventions`: state is the current
content and the `modified` flag. -/
def fixStep (filePath : Str) (st : Str × Bool) (v : ConventionViolation) : Str × Bool :=
  let r := applyConventionFix st.1 v filePath
  if r.success then (r.content, true) else st

/-- Embeds `autoFixConventions` (lines 339-371): filter the auto-fixable
violations, read the file (a missing file throws, caught as `false`), fold
the fixes, write back only when modified. -/
def autoFixConventions (fs : FS) (filePath : String)
    (violations : List ConventionViolation) : Bool × FS :=
  let afv := violations.filter (fun v => v.auto_fixable)
  if afv.isEmpty then (true, fs)
  else
    match fsRead fs filePath with
    | none => (false, fs)
    | some content =>
      let fin := afv.foldl (fixStep filePath.data) (content.data, false)
      if fin.2 then (true, fsWrite fs filePath (String.mk fin.1)) else (true, fs)

/-!
`SimpleCMakeCacheParser` (src/src/test/simpleTest.ts, lines 38-178): the
dependency-cache resolver present in the repository's sources.
-/
/-- The semantic dependency map extracted from CMakeCache.txt; `none` is the
JavaScript `undefined`. -/
structure CMakeDependencyInfo where
  obs_studio_dir : Option String
  qt6_dir : Option String
  qt6core_dir : Option String
  obs_frontend_api_dir : Option String
  libobs_dir : Option String
deriving DecidableEq, Repr

def emptyDeps : CMakeDependencyInfo :=
  { obs_studio_dir := none, qt6_dir := none, qt6core_dir := none
    obs_frontend_api_dir := none, libobs_dir := none }

structure CacheValidationResult where
  success : Bool
  dependencies : CMakeDependencyInfo
  warnings : List String
  errors : List String
deriving DecidableEq, Repr

def hashLit : Str := "#".data

def colonLit : Str := ":".data

def obsStudioDirLit : Str := "OBS_STUDIO_DIR:PATH=".data

def qt6DirLit : Str := "Qt6_DIR:PATH=".data

def qt6CoreDirLit : Str := "Qt6Core_DIR:PATH=".data

def obsFrontendApiDirLit : Str := "obs-frontend-api_DIR:PATH=".data

def libobsDirLit : Str := "libobs_DIR:PATH=".data

/-- Embeds `trimmed.split('=')[1]`: the second segment of the split. -/
def splitEqSecond (s : Str) : String :=
  String.mk ((s.splitOn '=').getD 1 [])

/-- Embeds `extractDependencyPaths` (simpleTest.ts lines 84-108): line by
line, skip comments and colon-free lines, then the if/else-if chain of
`includes` tests; later lines overwrite earlier ones. -/
def extractDependencyPaths (content : Str) : CMakeDependencyInfo :=
  (splitLines content).foldl
    (fun deps line =>
      let trimmed := trimStr line
      if startsWithStr trimmed hashLit || !containsStr trimmed colonLit then deps
      else if containsStr trimmed obsStudioDirLit then
        { deps with obs_studio_dir := some (splitEqSecond trimmed) }
      else if containsStr trimmed qt6DirLit then
        { deps with qt6_dir := some (splitEqSecond trimmed) }
      else if containsStr trimmed qt6CoreDirLit then
        { deps with qt6core_dir := some (splitEqSecond trimmed) }
      else if containsStr trimmed obsFrontendApiDirLit then
        { deps with obs_frontend_api_dir := some (splitEqSecond trimmed) }
      else if containsStr trimmed libobsDirLit then
        { deps with libobs_dir := some (splitEqSecond trimmed) }
      else deps)
    emptyDeps

/-- Embeds `parseCacheFile` (simpleTest.ts lines 39-82): a missing cache file
is a failure with one error; a present file whose trimmed content is empty is
a failure with one warning; otherwise the extracted map with success. -/
def parseCacheFile (fs : FS) (buildDir : String) : CacheValidationResult :=
  let cacheFile := buildDir ++ "/CMakeCache.txt"
  match fsRead fs cacheFile with
  | none =>
    { success := false, dependencies := emptyDeps, warnings := []
      errors := ["CMakeCache.txt not found in build directory"] }
  | some content =>
    if (trimStr content.data).isEmpty then
      { success := false, dependencies := emptyDeps
        warnings := ["CMakeCache.txt is empty"], errors := [] }
    else
      { success := true, dependencies := extractDependencyPaths content.data
        warnings := [], errors := [] }

/-- The caller-side dependency record handed to `compareDependencies`, with
the five semantic keys of the recognized-key set. -/
structure CurrentDeps where
  obs : Option String
  qt6 : Option String
  qt6core : Option String
  obs_frontend_api : Option String
  libobs : Option String
deriving DecidableEq, Repr

structure DependencyDiff where
  current : Option String
  cache : Option String
deriving DecidableEq, Repr

/-- Result of `compareDependencies`: the difference map has at most the two
keys `obs` and `qt6` that the source's `cacheMapping` carries. -/
structure ComparisonResult where
  hasChanges : Bool
  obsDiff : Option DependencyDiff
  qt6Diff : Option DependencyDiff
deriving DecidableEq, Repr

/-- Embeds `compareDependencies` (simpleTest.ts lines 156-178): the
`cacheMapping` object holds exactly `obs` and `qt6`; a key differing between
the caller's value and the cache value is recorded with both sides. -/
def compareDependencies (current : CurrentDeps) (cache : CMakeDependencyInfo) :
    ComparisonResult :=
  let obsDiffer := current.obs ≠ cache.obs_studio_dir
  let qt6Differ := current.qt6 ≠ cache.qt6_dir
  { hasChanges := decide obsDiffer || decide qt6Differ
    obsDiff :=
      if obsDiffer then some { current := current.obs, cache := cache.obs_studio_dir }
      else none
    qt6Diff :=
      if qt6Differ then some { current := current.qt6, cache := cache.qt6_dir }
      else none }

/-- Definition following the spec's words for claim C7: every recognized
semantic key (SDK root, UI-toolkit root, UI-toolkit-core root, frontend-API
root, core-library root) has equal values on both sides, both-undefined
counting as equal. -/
def specAllRecognizedKeysMatch (current : CurrentDeps) (cache : CMakeDependencyInfo) :
    Prop :=
  current.obs = cache.obs_studio_dir ∧
    current.qt6 = cache.qt6_dir ∧
    current.qt6core = cache.qt6core_dir ∧
    current.obs_frontend_api = cache.obs_frontend_api_dir ∧
    current.libobs = cache.libobs_dir

/-!
`BuildExecutor` (src/src/core/TemplateManager.ts, second module, lines
690-1082): the `currentProcess` slot as a state machine.  `executeCommand`
(lines 1005-1057) assigns the freshly spawned child to the slot without any
guard; the `close` and `error` handlers null the slot; `cancel` (lines
879-886) kills and nulls it when occupied; the timeout callback (lines
1046-1051) kills the process and rejects but leaves the slot to the later
`close` event.  Streaming, timers and the child's output are outside the
state the claim speaks about.
-/
structure ExecutorState where
  currentProcess : Option Nat
deriving DecidableEq, Repr

/-- The spawn step of `executeCommand`: `this.currentProcess = cp.spawn(...)`,
run unconditionally whatever the slot held. -/
def executeCommandSpawn (_s : ExecutorState) (pid : Nat) : ExecutorState :=
  { currentProcess := some pid }

/-- The `close` handler: `this.currentProcess = null`. -/
def processClosed (_s : ExecutorState) : ExecutorState :=
  { currentProcess := none }

/-- The `error` handler: `this.currentProcess = null`. -/
def processErrored (_s : ExecutorState) : ExecutorState :=
  { currentProcess := none }

/-- Embeds `cancel` (lines 879-886): when a process is held it is killed and
the slot nulled, otherwise nothing happens. -/
def cancelBuild (s : ExecutorState) : ExecutorState :=
  match s.currentProcess with
  | some _ => { currentProcess := none }
  | none => s

/-- The timeout callback: kills the held process and rejects, but does not
itself null the slot (the kill's `close` event does that later). -/
def timeoutFired (s : ExecutorState) : ExecutorState :=
  s

/-!
Concrete instances used by the claims' counterexamples and witnesses.
-/
/-- A linker diagnostic line in the shape the fourth pattern recognizes. -/
def linkerLine : String := "libfoo.o:42: undefined reference to myFunc"

/-- A unified-diff patch naming a file absent from the file system. -/
def patchC5 : PatchOperation :=
  { ptype := PatchType.unified_diff, content := "content"
    target_files := ["missing.cpp"], validation_status := ValidationStatus.pending
    convention_compliance := true, auto_commit := true }

/-- Another pending unified-diff patch with an absent target. -/
def patchC6 : PatchOperation :=
  { ptype := PatchType.unified_diff, content := "x"
    target_files := ["absent.cpp"], validation_status := ValidationStatus.pending
    convention_compliance := true, auto_commit := true }

/-- Caller-side dependencies whose UI-toolkit-core root differs from the
cache below while the two compared keys agree. -/
def curC7 : CurrentDeps :=
  { obs := some "/a", qt6 := some "/b", qt6core := some "/X"
    obs_frontend_api := none, libobs := none }

def cacheC7 : CMakeDependencyInfo :=
  { obs_studio_dir := some "/a", qt6_dir := some "/b", qt6core_dir := some "/Y"
    obs_frontend_api_dir := none, libobs_dir := none }

/-- A file whose base name contains a newline, so the generated meta-object
include spans two lines of the file below. -/
def pathC9 : String := "a\nb.cpp"

/-- The file's content: the include occurrence straddles the boundary where
the guard directive gets inserted. -/
def fsC9 : FS := [("a\nb.cpp", "// c #include \"moc_a\nb.cpp\" z\nrest")]

def vsC9 : List ConventionViolation :=
  [{ vtype := "moc_include_missing", suggestion := "s", auto_fixable := true },
    { vtype := "missing_pragma_once", suggestion := "s", auto_fixable := true }]

/-- An ordinary header-fix scenario for the witnesses. -/
def fsW : FS := [("w.cpp", "int x;")]

def vsW : List ConventionViolation :=
  [{ vtype := "missing_pragma_once", suggestion := "s", auto_fixable := true }]

/-- Invariant carried through the fold for the guard directive: either it is
absent and no line equals it, or it is present in exactly one line. -/
def PragmaCountGood (c : Str) : Prop :=
  (¬ pragmaOnceLit <:+: c ∧ (splitLines c).count pragmaOnceLit = 0) ∨
    (pragmaOnceLit <:+: c ∧ (splitLines c).count pragmaOnceLit = 1)

/-- The same invariant for the generated meta-object include line. -/
def MocCountGood (fp c : Str) : Prop :=
  (¬ mocIncludeOf fp <:+: c ∧ (splitLines c).count (mocIncludeOf fp) = 0) ∨
    (mocIncludeOf fp <:+: c ∧ (splitLines c).count (mocIncludeOf fp) = 1)

theorem splitLines_ne_nil (s : Str) : splitLines s ≠ [] := by
  induction s with
  | nil => simp [splitLines]
  | cons c rest ih =>
    simp only [splitLines]
    split
    · simp
    · cases h : splitLines rest with
      | nil => exact absurd h ih
      | cons l ls => simp

theorem joinLines_cons (l : Str) (ls : List Str) (h : ls ≠ []) :
    joinLines (l :: ls) = l ++ '\n' :: joinLines ls := by
  cases ls with
  | nil => exact absurd rfl h
  | cons a as => rfl

theorem joinLines_splitLines (s : Str) : joinLines (splitLines s) = s := by
  induction s with
  | nil => rfl
  | cons c rest ih =>
    simp only [splitLines]
    split
    · rename_i hc
      subst hc
      rw [joinLines_cons _ _ (splitLines_ne_nil rest), ih]
      rfl
    · cases h : splitLines rest with
      | nil => exact absurd h (splitLines_ne_nil rest)
      | cons l ls =>
        rw [h] at ih
        cases ls with
        | nil =>
          simp only [joinLines] at ih ⊢
          rw [ih]
        | cons b bs =>
          rw [joinLines_cons _ _ (by simp)] at ih ⊢
          simp only [List.cons_append, ih]

theorem splitLines_append_newline (a b : Str) :
    splitLines (a ++ '\n' :: b) = splitLines a ++ splitLines b := by
  induction a with
  | nil =>
    simp only [List.nil_append, splitLines, if_pos rfl]
    rfl
  | cons c a' ih =>
    simp only [List.cons_append, splitLines, List.append_eq]
    by_cases hc : c = '\n'
    · rw [if_pos hc, if_pos hc, ih]
      rfl
    · rw [if_neg hc, if_neg hc, ih]
      cases h : splitLines a' with
      | nil => exact absurd h (splitLines_ne_nil a')
      | cons l ls => simp

theorem splitLines_no_newline (s : Str) (h : '\n' ∉ s) : splitLines s = [s] := by
  induction s with
  | nil => rfl
  | cons c rest ih =>
    have hc : ¬ c = '\n' := fun e => h (List.mem_cons.mpr (Or.inl e.symm))
    have h2 : '\n' ∉ rest := fun m => h (List.mem_cons.mpr (Or.inr m))
    simp only [splitLines]
    rw [if_neg hc, ih h2]

theorem mem_splitLines_no_newline (s : Str) (l : Str) (hl : l ∈ splitLines s) :
    '\n' ∉ l := by
  induction s generalizing l with
  | nil =>
    simp only [splitLines, List.mem_singleton] at hl
    subst hl
    simp
  | cons c rest ih =>
    simp only [splitLines] at hl
    by_cases hc : c = '\n'
    · rw [if_pos hc] at hl
      rcases List.mem_cons.mp hl with h | h
      · subst h; simp
      · exact ih l h
    · rw [if_neg hc] at hl
      cases h : splitLines rest with
      | nil => exact absurd h (splitLines_ne_nil rest)
      | cons p ps =>
        rw [h] at hl
        rcases List.mem_cons.mp hl with h1 | h1
        · subst h1
          intro hmem
          rcases List.mem_cons.mp hmem with h2 | h2
          · exact hc h2.symm
          · exact ih p (h ▸ List.mem_cons_self p ps) h2
        · exact ih l (h ▸ List.mem_cons.mpr (Or.inr h1))

theorem splitLines_joinLines (L : List Str) (hne : L ≠ [])
    (hnl : ∀ l ∈ L, '\n' ∉ l) : splitLines (joinLines L) = L := by
  induction L with
  | nil => exact absurd rfl hne
  | cons l ls ih =>
    cases ls with
    | nil =>
      simp only [joinLines]
      exact splitLines_no_newline l (hnl l (List.mem_cons_self l []))
    | cons b bs =>
      rw [joinLines_cons _ _ (by simp), splitLines_append_newline,
        splitLines_no_newline l (hnl l (List.mem_cons_self l (b :: bs)))]
      rw [ih (by simp) (fun x hx => hnl x (List.mem_cons.mpr (Or.inr hx)))]
      rfl

theorem prefix_of_prefix_append_cons {pat b : Str} {c : Char} :
    ∀ {a : Str}, pat <+: a ++ c :: b → c ∉ pat → pat <+: a := by
  induction pat with
  | nil => intro a _ _; exact List.nil_prefix
  | cons p ps ih =>
    intro a h hc
    cases a with
    | nil =>
      rcases (List.cons_prefix_cons.mp h) with ⟨h1, _⟩
      exact absurd (h1 ▸ List.mem_cons_self p ps) hc
    | cons x a' =>
      rcases (List.cons_prefix_cons.mp h) with ⟨h1, h2⟩
      exact List.cons_prefix_cons.mpr
        ⟨h1, ih h2 (fun m => hc (List.mem_cons.mpr (Or.inr m)))⟩

theorem infix_of_infix_append_cons {pat b : Str} {c : Char}
    (hne : pat ≠ []) (hc : c ∉ pat) :
    ∀ {a : Str}, pat <:+: a ++ c :: b → pat <:+: a ∨ pat <:+: b := by
  intro a
  induction a with
  | nil =>
    intro h
    rcases List.infix_cons_iff.mp h with h1 | h1
    · cases pat with
      | nil => exact absurd rfl hne
      | cons p ps =>
        rcases List.cons_prefix_cons.mp h1 with ⟨h2, _⟩
        exact absurd (h2 ▸ List.mem_cons_self p ps) hc
    · exact Or.inr h1
  | cons x a' ih =>
    intro h
    rcases List.infix_cons_iff.mp h with h1 | h1
    · exact Or.inl (prefix_of_prefix_append_cons (List.cons_append x a' (c :: b) ▸ h1) hc).isInfix
    · rcases ih h1 with h2 | h2
      · exact Or.inl (List.infix_cons h2)
      · exact Or.inr h2

theorem infix_joinLines_of_mem {l : Str} {L : List Str} (hl : l ∈ L) :
    l <:+: joinLines L := by
  induction L with
  | nil => simp at hl
  | cons x xs ih =>
    rcases List.mem_cons.mp hl with h | h
    · subst h
      cases xs with
      | nil => exact List.infix_refl l
      | cons b bs =>
        rw [joinLines_cons _ _ (by simp)]
        exact (List.prefix_append l ('\n' :: joinLines (b :: bs))).isInfix
    · cases xs with
      | nil => simp at h
      | cons b bs =>
        rw [joinLines_cons _ _ (by simp)]
        exact ((List.infix_cons (ih h)).trans (List.suffix_append x _).isInfix)

theorem infix_joinLines_iff {pat : Str} (hne : pat ≠ []) (hnl : '\n' ∉ pat)
    (L : List Str) : pat <:+: joinLines L ↔ ∃ l ∈ L, pat <:+: l := by
  constructor
  · intro h
    induction L with
    | nil =>
      exact absurd (List.sublist_nil.mp h.sublist) hne
    | cons x xs ih =>
      cases xs with
      | nil => exact ⟨x, List.mem_cons_self x [], h⟩
      | cons b bs =>
        rw [joinLines_cons _ _ (by simp)] at h
        rcases infix_of_infix_append_cons hne hnl h with h1 | h1
        · exact ⟨x, List.mem_cons_self x _, h1⟩
        · rcases ih h1 with ⟨l, hl, hpat⟩
          exact ⟨l, List.mem_cons.mpr (Or.inr hl), hpat⟩
  · rintro ⟨l, hl, hpat⟩
    exact hpat.trans (infix_joinLines_of_mem hl)

/-- One element of `v ∈ (if p then [x] else [])` is that element. -/
theorem mem_if_singleton {α : Type} {p : Prop} [Decidable p] {x v : α}
    (h : v ∈ (if p then [x] else [])) : v = x := by
  split at h
  · exact List.mem_singleton.mp h
  · exact absurd h (List.not_mem_nil v)

/-- C1: `parseCacheFile` on a build directory whose cache file exists with
empty (or whitespace-only) content returns `success = false` with the
"CMakeCache.txt is empty" warning — not the `success = true` result the claim
(and the repository's own CMakeCacheParser.test.ts, lines 61-69) state. -/
theorem parseCacheFile_empty_reports_failure :
    parseCacheFile [("build/CMakeCache.txt", "")] "build" =
      { success := false, dependencies := emptyDeps
        warnings := ["CMakeCache.txt is empty"], errors := [] } ∧
    parseCacheFile [("bld/CMakeCache.txt", " \n  ")] "bld" =
      { success := false, dependencies := emptyDeps
        warnings := ["CMakeCache.txt is empty"], errors := [] } := by
  exact ⟨by decide, by decide⟩

/-- C2: for every raw log text and preset id the diagnostics returned by
`parseErrors` are sorted ascending by file, and ascending by line within one
file: pairwise `errLE`, the order its comparator sorts into. -/
theorem parseErrors_sorted (logOutput cmakePreset : String) :
    List.Sorted errLE (parseErrors logOutput cmakePreset) := by
  unfold parseErrors
  exact List.sorted_insertionSort errLE _

/-- C3: the linker pattern recognizes the "undefined reference" line (its
match is present), but its match array has only four entries, so
`createBuildError` returns none and `parseErrors` produces no diagnostic at
all for the line. -/
theorem linker_line_yields_no_diagnostic :
    (matchLinker linkerLine.data).isSome = true ∧
    (matchLinker linkerLine.data).map (fun m => createBuildError m "default") =
      some none ∧
    parseErrors linkerLine "default" = [] := by
  refine ⟨by decide, by decide, by decide⟩

/-- C4: `detectPatchType` returns `unified_diff` exactly when the content
contains the three markers `@@`, `---` and `+++`, and `edit_instructions`
otherwise. -/
theorem detectPatchType_spec (content : String) :
    (detectPatchType content.data = PatchType.unified_diff ↔
      (atAtLit <:+: content.data ∧ dashesLit <:+: content.data ∧
        plusesLit <:+: content.data)) ∧
    (detectPatchType content.data = PatchType.edit_instructions ↔
      ¬(atAtLit <:+: content.data ∧ dashesLit <:+: content.data ∧
        plusesLit <:+: content.data)) := by
  unfold detectPatchType containsStr
  by_cases h1 : atAtLit <:+: content.data <;>
    by_cases h2 : dashesLit <:+: content.data <;>
      by_cases h3 : plusesLit <:+: content.data <;>
        simp [h1, h2, h3]

/-- C5: applying a unified-diff patch that names a target file absent from
the file system fails validation, returns an unsuccessful result, performs no
commit, and leaves the file system (and the patch) exactly as they were. -/
theorem applyPatch_missing_target (ws : Option String)
    (git : FS → String → Option FS) (fs : FS) (p : PatchOperation) (f : String)
    (_hty : p.ptype = PatchType.unified_diff) (hf : f ∈ p.target_files)
    (hmiss : fsRead fs f = none) :
    applyPatch ws git fs p =
      { success := false, fs := fs, patch := p, committed := false } := by
  have hex : fsExists fs f = false := by
    unfold fsExists
    rw [hmiss]
    rfl
  have hall : p.target_files.all (fun x => fsExists fs x) = false := by
    cases hcase : p.target_files.all (fun x => fsExists fs x) with
    | false => rfl
    | true =>
      have := List.all_eq_true.mp hcase f hf
      rw [hex] at this
      exact absurd this (by simp)
  have hv : validatePatch fs p = false := by
    unfold validatePatch
    rw [hall]
    rfl
  unfold applyPatch
  rw [if_pos hv]

/-- C5 witness: the theorem applied to a concrete empty file system and the
pending diff patch naming `missing.cpp`. -/
theorem applyPatch_missing_target_witness :
    patchC5.ptype = PatchType.unified_diff ∧
    "missing.cpp" ∈ patchC5.target_files ∧
    fsRead ([] : FS) "missing.cpp" = none ∧
    applyPatch none (fun _ _ => none) [] patchC5 =
      { success := false, fs := [], patch := patchC5, committed := false } :=
  ⟨rfl, by decide, rfl,
    applyPatch_missing_target none (fun _ _ => none) [] patchC5 "missing.cpp"
      rfl (by decide) rfl⟩

/-- C6 counterexample: on the pre-apply validation failure path the apply
returns false but the patch's validation status stays `pending` — it does not
become `invalid` as the claim states. -/
theorem applyPatch_validation_failure_keeps_pending :
    (applyPatch none (fun _ _ => none) [] patchC6).success = false ∧
    (applyPatch none (fun _ _ => none) [] patchC6).patch.validation_status ≠
      ValidationStatus.invalid ∧
    (applyPatch none (fun _ _ => none) [] patchC6).patch.validation_status =
      ValidationStatus.pending := by
  refine ⟨by decide, by decide, by decide⟩

/-- C6 amended: whenever `applyPatch` fails, no commit is performed; the
status becomes `invalid` when the failure happens after validation passed,
while a pre-apply validation failure returns the patch untouched (its status
left as it was). -/
theorem applyPatch_failure_status (ws : Option String)
    (git : FS → String → Option FS) (fs : FS) (p : PatchOperation)
    (hfail : (applyPatch ws git fs p).success = false) :
    (applyPatch ws git fs p).committed = false ∧
    (validatePatch fs p = true →
      (applyPatch ws git fs p).patch.validation_status = ValidationStatus.invalid) ∧
    (validatePatch fs p = false → (applyPatch ws git fs p).patch = p) := by
  simp only [applyPatch] at hfail ⊢
  by_cases hv : validatePatch fs p = false
  · rw [if_pos hv]
    refine ⟨rfl, ?_, fun _ => rfl⟩
    intro htrue
    rw [htrue] at hv
    exact absurd hv (by simp)
  · rw [if_neg hv] at hfail ⊢
    cases hr : (if p.ptype = PatchType.unified_diff then applyUnifiedDiff ws git fs p
        else applyEditInstructions fs p).1 with
    | true =>
      rw [hr] at hfail
      simp at hfail
    | false =>
      refine ⟨by simp, fun _ => by simp, fun hfalse => absurd hfalse hv⟩

/-- C6 witness: the amended theorem applied to the concrete pending patch
with an absent target. -/
theorem applyPatch_failure_status_witness :
    (applyPatch none (fun _ _ => none) [] patchC6).committed = false ∧
    (validatePatch [] patchC6 = true →
      (applyPatch none (fun _ _ => none) [] patchC6).patch.validation_status =
        ValidationStatus.invalid) ∧
    (validatePatch [] patchC6 = false →
      (applyPatch none (fun _ _ => none) [] patchC6).patch = patchC6) :=
  applyPatch_failure_status none (fun _ _ => none) [] patchC6 (by decide)

/-- C7 counterexample: with the compared keys equal but the UI-toolkit-core
root differing between the two sides, `compareDependencies` reports
`hasChanges = false` even though not every recognized semantic key matches. -/
theorem compareDependencies_ignores_other_keys :
    (compareDependencies curC7 cacheC7).hasChanges = false ∧
    ¬ specAllRecognizedKeysMatch curC7 cacheC7 := by
  constructor
  · decide
  · intro h
    have h3 := h.2.2.1
    simp [curC7, cacheC7] at h3

/-- C7 amended: `compareDependencies` compares exactly the two mapped keys:
`hasChanges = false` iff the SDK root and the UI-toolkit root agree on both
sides (both-undefined counting as equal), and each of those two keys, when it
differs, is recorded in the difference map with its current and cache
values. -/
theorem compareDependencies_compares_obs_qt6 (current : CurrentDeps)
    (cache : CMakeDependencyInfo) :
    ((compareDependencies current cache).hasChanges = false ↔
      (current.obs = cache.obs_studio_dir ∧ current.qt6 = cache.qt6_dir)) ∧
    ((compareDependencies current cache).obsDiff =
      if current.obs ≠ cache.obs_studio_dir then
        some { current := current.obs, cache := cache.obs_studio_dir }
      else none) ∧
    ((compareDependencies current cache).qt6Diff =
      if current.qt6 ≠ cache.qt6_dir then
        some { current := current.qt6, cache := cache.qt6_dir }
      else none) := by
  unfold compareDependencies
  refine ⟨?_, rfl, rfl⟩
  by_cases h1 : current.obs = cache.obs_studio_dir <;>
    by_cases h2 : current.qt6 = cache.qt6_dir <;>
      simp [h1, h2]

/-- C8 counterexample: `executeCommand` started while a process is already
held does not reject — it spawns and overwrites the slot with the new
process. -/
theorem second_start_not_rejected :
    ({ currentProcess := some 1 } : ExecutorState).currentProcess ≠ none ∧
    (executeCommandSpawn { currentProcess := some 1 } 2).currentProcess = some 2 ∧
    executeCommandSpawn { currentProcess := some 1 } 2 ≠
      ({ currentProcess := some 1 } : ExecutorState) := by
  refine ⟨by decide, rfl, by decide⟩

/-- C8 amended: the spawn step unconditionally installs the new process
whatever the slot held (no reject-concurrent-start guard); the slot is
cleared by the close and error handlers and by `cancel`, and after a timeout
it is cleared when the killed process's close event fires. -/
theorem executor_slot_behaviour :
    (∀ (s : ExecutorState) (pid : Nat),
      (executeCommandSpawn s pid).currentProcess = some pid) ∧
    (∀ s : ExecutorState, (processClosed s).currentProcess = none) ∧
    (∀ s : ExecutorState, (processErrored s).currentProcess = none) ∧
    (∀ s : ExecutorState, (cancelBuild s).currentProcess = none) ∧
    (∀ s : ExecutorState, (processClosed (timeoutFired s)).currentProcess = none) := by
  refine ⟨fun s pid => rfl, fun s => rfl, fun s => rfl, ?_, fun s => rfl⟩
  intro s
  cases s with
  | mk cp => cases cp <;> rfl

/-- C10 counterexample: `validateConventions` on a `.h` file emits the
wrong-header-suffix violation with `auto_fixable = true`, not the `false` the
claim assigns to the structural kinds. -/
theorem wrong_header_extension_is_auto_fixable :
    (validateConventions "foo.h".data "".data).map (fun v => (v.vtype, v.auto_fixable)) =
      [("wrong_header_extension", true)] := by
  decide

/-- C10 amended: the auto-fixable flag is statically determined by the kind
in both producers, but with the wrong-header-suffix kind auto-fixable: both
`createConventionViolation` and `validateConventions` mark
`missing_pragma_once`, `wrong_header_extension` and `moc_include_missing` as
auto-fixable and exactly `ui_component_location` as not. -/
theorem conventionAutoFixable_by_kind :
    (∀ (ty : String) (msg file : Str),
      (createConventionViolation ty msg file).auto_fixable =
        ((ty == missingPragmaKey) || (ty == wrongHeaderKey) || (ty == mocIncludeKey))) ∧
    (∀ (filePath content : Str) (v : ConventionViolation),
      v ∈ validateConventions filePath content →
        v.auto_fixable = !(v.vtype == uiComponentKey)) := by
  constructor
  · intro ty msg file
    unfold createConventionViolation conventionAutoFixable
    by_cases h1 : ty = missingPragmaKey <;>
      by_cases h2 : ty = wrongHeaderKey <;>
        by_cases h3 : ty = uiComponentKey <;>
          by_cases h4 : ty = mocIncludeKey <;>
            simp_all [missingPragmaKey, wrongHeaderKey, uiComponentKey, mocIncludeKey]
  · intro filePath content v hv
    simp only [validateConventions, List.mem_append] at hv
    rcases hv with (((h | h) | h) | h) <;>
      rw [mem_if_singleton h] <;>
        simp [missingPragmaKey, wrongHeaderKey, uiComponentKey, mocIncludeKey]

/-!
Lemmas about `applyConventionFix`'s two text transforms, towards claim C9.
-/
theorem containsStr_iff {hay pat : Str} : containsStr hay pat = true ↔ pat <:+: hay := by
  unfold containsStr
  exact decide_eq_true_iff

theorem mocIncludeOf_getElem1 (q : Str) : (mocIncludeOf q)[1]? = some 'i' := by
  unfold mocIncludeOf
  rw [List.append_assoc, List.getElem?_append_left (by decide)]
  decide

theorem mocIncludeOf_ne_pragma (q : Str) : mocIncludeOf q ≠ pragmaOnceLit := by
  intro h
  have h1 := mocIncludeOf_getElem1 q
  rw [h] at h1
  exact absurd h1 (by decide)

theorem mocIncludeOf_ne_nil (q : Str) : mocIncludeOf q ≠ [] := by
  unfold mocIncludeOf
  intro h
  have hl := congrArg List.length h
  simp [List.length_append] at hl

theorem not_mocIncludeOf_infix_pragma (q : Str) : ¬ mocIncludeOf q <:+: pragmaOnceLit := by
  intro h
  have hlen := h.length_le
  unfold mocIncludeOf at hlen
  have l1 : ("#include \"moc_".data).length = 14 := rfl
  have l2 : (".cpp\"".data).length = 5 := rfl
  have l3 : pragmaOnceLit.length = 12 := rfl
  rw [List.length_append, List.length_append, l1, l2, l3] at hlen
  omega

theorem mem_insert_lines {l : Str} {L : List Str} {i : Nat} (hl : l ∈ L) :
    l ∈ L.take i ++ [pragmaOnceLit, []] ++ L.drop i := by
  rw [← List.take_append_drop i L] at hl
  rcases List.mem_append.mp hl with h | h
  · exact List.mem_append.mpr (Or.inl (List.mem_append.mpr (Or.inl h)))
  · exact List.mem_append.mpr (Or.inr h)

theorem splitLines_insertPragma (c : Str) :
    splitLines (insertPragma c) =
      (splitLines c).take (skipIdx (splitLines c)) ++ [pragmaOnceLit, []] ++
        (splitLines c).drop (skipIdx (splitLines c)) := by
  unfold insertPragma
  apply splitLines_joinLines
  · simp
  · intro l hl
    rcases List.mem_append.mp hl with h | h
    · rcases List.mem_append.mp h with h1 | h1
      · exact mem_splitLines_no_newline c l (List.mem_of_mem_take h1)
      · rcases List.mem_cons.mp h1 with h2 | h2
        · subst h2; decide
        · rw [List.mem_singleton.mp h2]; simp
    · exact mem_splitLines_no_newline c l (List.mem_of_mem_drop h)

theorem insertPragma_contains_pragma (c : Str) : pragmaOnceLit <:+: insertPragma c := by
  unfold insertPragma
  exact infix_joinLines_of_mem
    (List.mem_append.mpr (Or.inl (List.mem_append.mpr (Or.inr (by simp)))))

theorem insertPragma_preserves {s c : Str} (hne : s ≠ []) (hnl : '\n' ∉ s)
    (hs : s <:+: c) : s <:+: insertPragma c := by
  unfold insertPragma
  rw [← joinLines_splitLines c] at hs
  obtain ⟨l, hl, hsl⟩ := (infix_joinLines_iff hne hnl (splitLines c)).mp hs
  exact (infix_joinLines_iff hne hnl _).mpr ⟨l, mem_insert_lines hl, hsl⟩

theorem insertPragma_not_contains {s c : Str} (hne : s ≠ []) (hnl : '\n' ∉ s)
    (hsp : ¬ s <:+: pragmaOnceLit) (hs : ¬ s <:+: c) : ¬ s <:+: insertPragma c := by
  intro h
  unfold insertPragma at h
  obtain ⟨l, hl, hsl⟩ := (infix_joinLines_iff hne hnl _).mp h
  rcases List.mem_append.mp hl with h1 | h1
  · rcases List.mem_append.mp h1 with h2 | h2
    · exact hs (by
        rw [← joinLines_splitLines c]
        exact hsl.trans (infix_joinLines_of_mem (List.mem_of_mem_take h2)))
    · rcases List.mem_cons.mp h2 with h3 | h3
      · exact hsp (h3 ▸ hsl)
      · rw [List.mem_singleton.mp h3] at hsl
        exact hne (List.sublist_nil.mp hsl.sublist)
  · exact hs (by
      rw [← joinLines_splitLines c]
      exact hsl.trans (infix_joinLines_of_mem (List.mem_of_mem_drop h1)))

theorem count_insertPragma (c s : Str) :
    (splitLines (insertPragma c)).count s =
      (splitLines c).count s + ([pragmaOnceLit, []] : List Str).count s := by
  rw [splitLines_insertPragma, List.count_append, List.count_append]
  have h2 : (splitLines c).count s =
      ((splitLines c).take (skipIdx (splitLines c))).count s +
        ((splitLines c).drop (skipIdx (splitLines c))).count s := by
    rw [← List.count_append, List.take_append_drop]
  omega

theorem splitLines_mocAppend (c inc : Str) (hinc : '\n' ∉ inc) :
    splitLines (c ++ '\n' :: (inc ++ ['\n'])) = splitLines c ++ [inc, []] := by
  rw [splitLines_append_newline]
  congr 1
  have he : inc ++ ['\n'] = inc ++ '\n' :: ([] : Str) := rfl
  rw [he, splitLines_append_newline, splitLines_no_newline inc hinc]
  rfl

theorem count_mocAppend (c inc s : Str) (hinc : '\n' ∉ inc) :
    (splitLines (c ++ '\n' :: (inc ++ ['\n']))).count s =
      (splitLines c).count s + ([inc, []] : List Str).count s := by
  rw [splitLines_mocAppend c inc hinc, List.count_append]

theorem count_zero_of_not_infix {s c : Str} (hs : ¬ s <:+: c) :
    (splitLines c).count s = 0 := by
  rw [List.count_eq_zero]
  intro hmem
  exact hs (by
    rw [← joinLines_splitLines c]
    exact infix_joinLines_of_mem hmem)

theorem count_pair_eq_zero {s a b : Str} (h1 : s ≠ a) (h2 : s ≠ b) :
    ([a, b] : List Str).count s = 0 := by
  simp [List.count_cons, h1, h2]

theorem count_pair_self_left {a b : Str} (h : a ≠ b) :
    ([a, b] : List Str).count a = 1 := by
  simp [List.count_cons, h]

theorem not_infix_mocAppend {s c inc : Str} (hne : s ≠ []) (hnl : '\n' ∉ s)
    (hinc : '\n' ∉ inc) (hsi : ¬ s <:+: inc) (hs : ¬ s <:+: c) :
    ¬ s <:+: c ++ '\n' :: (inc ++ ['\n']) := by
  intro h
  rw [← joinLines_splitLines (c ++ '\n' :: (inc ++ ['\n']))] at h
  rw [splitLines_mocAppend c inc hinc] at h
  obtain ⟨l, hl, hsl⟩ := (infix_joinLines_iff hne hnl _).mp h
  rcases List.mem_append.mp hl with h1 | h1
  · exact hs (by
      rw [← joinLines_splitLines c]
      exact hsl.trans (infix_joinLines_of_mem h1))
  · rcases List.mem_cons.mp h1 with h3 | h3
    · exact hsi (h3 ▸ hsl)
    · rw [List.mem_singleton.mp h3] at hsl
      exact hne (List.sublist_nil.mp hsl.sublist)

/-!
Behaviour of one fix step and of the whole fold of `autoFixConventions`.
-/
theorem fixStep_pragma_of_contains {fp c : Str} {m : Bool} {v : ConventionViolation}
    (hv : v.vtype = missingPragmaKey) (hc : pragmaOnceLit <:+: c) :
    fixStep fp (c, m) v = (c, m) := by
  simp only [fixStep, applyConventionFix]
  rw [hv, if_pos rfl, if_pos (containsStr_iff.mpr hc)]
  rfl

theorem fixStep_pragma_of_not_contains {fp c : Str} {m : Bool} {v : ConventionViolation}
    (hv : v.vtype = missingPragmaKey) (hc : ¬ pragmaOnceLit <:+: c) :
    fixStep fp (c, m) v = (insertPragma c, true) := by
  simp only [fixStep, applyConventionFix]
  rw [hv, if_pos rfl, if_neg (fun h => hc (containsStr_iff.mp h))]
  rfl

theorem fixStep_moc_of_contains {fp c : Str} {m : Bool} {v : ConventionViolation}
    (hv : v.vtype = mocIncludeKey) (hc : mocIncludeOf fp <:+: c) :
    fixStep fp (c, m) v = (c, m) := by
  have hne : mocIncludeKey ≠ missingPragmaKey := by decide
  simp only [fixStep, applyConventionFix]
  rw [hv, if_neg hne, if_pos (rfl : mocIncludeKey = mocIncludeKey),
    if_pos (containsStr_iff.mpr hc)]
  rfl

theorem fixStep_moc_of_not_contains {fp c : Str} {m : Bool} {v : ConventionViolation}
    (hv : v.vtype = mocIncludeKey) (hc : ¬ mocIncludeOf fp <:+: c) :
    fixStep fp (c, m) v = (c ++ '\n' :: (mocIncludeOf fp ++ ['\n']), true) := by
  have hne : mocIncludeKey ≠ missingPragmaKey := by decide
  simp only [fixStep, applyConventionFix]
  rw [hv, if_neg hne, if_pos (rfl : mocIncludeKey = mocIncludeKey),
    if_neg (fun h => hc (containsStr_iff.mp h))]
  rfl

theorem fixStep_other {fp c : Str} {m : Bool} {v : ConventionViolation}
    (h1 : v.vtype ≠ missingPragmaKey) (h2 : v.vtype ≠ mocIncludeKey) :
    fixStep fp (c, m) v = (c, m) := by
  simp only [fixStep, applyConventionFix]
  rw [if_neg h1, if_neg h2]
  rfl

theorem fixStep_preserves {fp s : Str} (hne : s ≠ []) (hnl : '\n' ∉ s)
    {c : Str} {m : Bool} {v : ConventionViolation} (hs : s <:+: c) :
    s <:+: (fixStep fp (c, m) v).1 := by
  by_cases h1 : v.vtype = missingPragmaKey
  · by_cases hc : pragmaOnceLit <:+: c
    · rw [fixStep_pragma_of_contains h1 hc]; exact hs
    · rw [fixStep_pragma_of_not_contains h1 hc]
      exact insertPragma_preserves hne hnl hs
  · by_cases h2 : v.vtype = mocIncludeKey
    · by_cases hc : mocIncludeOf fp <:+: c
      · rw [fixStep_moc_of_contains h2 hc]; exact hs
      · rw [fixStep_moc_of_not_contains h2 hc]
        exact hs.trans (List.prefix_append c _).isInfix
    · rw [fixStep_other h1 h2]; exact hs

theorem foldFix_preserves {fp s : Str} (hne : s ≠ []) (hnl : '\n' ∉ s)
    (vs : List ConventionViolation) (st : Str × Bool) (hs : s <:+: st.1) :
    s <:+: (vs.foldl (fixStep fp) st).1 := by
  induction vs generalizing st with
  | nil => exact hs
  | cons v vs' ih =>
    rw [List.foldl_cons]
    exact ih (fixStep fp st v) (fixStep_preserves hne hnl hs)

theorem foldFix_establishes_pragma {fp : Str} (vs : List ConventionViolation)
    (st : Str × Bool) (v : ConventionViolation) (hv : v ∈ vs)
    (hty : v.vtype = missingPragmaKey) :
    pragmaOnceLit <:+: (vs.foldl (fixStep fp) st).1 := by
  induction vs generalizing st with
  | nil => simp at hv
  | cons w ws ih =>
    rw [List.foldl_cons]
    rcases List.mem_cons.mp hv with h | h
    · subst h
      refine foldFix_preserves (by decide) (by decide) ws _ ?_
      by_cases hc : pragmaOnceLit <:+: st.1
      · rw [fixStep_pragma_of_contains hty hc]; exact hc
      · rw [fixStep_pragma_of_not_contains hty hc]
        exact insertPragma_contains_pragma st.1
    · exact ih _ h

theorem foldFix_establishes_moc {fp : Str} (hinc : '\n' ∉ mocIncludeOf fp)
    (vs : List ConventionViolation) (st : Str × Bool) (v : ConventionViolation)
    (hv : v ∈ vs) (hty : v.vtype = mocIncludeKey) :
    mocIncludeOf fp <:+: (vs.foldl (fixStep fp) st).1 := by
  induction vs generalizing st with
  | nil => simp at hv
  | cons w ws ih =>
    rw [List.foldl_cons]
    rcases List.mem_cons.mp hv with h | h
    · subst h
      refine foldFix_preserves (mocIncludeOf_ne_nil fp) hinc ws _ ?_
      by_cases hc : mocIncludeOf fp <:+: st.1
      · rw [fixStep_moc_of_contains hty hc]; exact hc
      · rw [fixStep_moc_of_not_contains hty hc]
        exact ((List.infix_cons (List.prefix_append (mocIncludeOf fp) ['\n']).isInfix).trans
          (List.suffix_append st.1 _).isInfix)
    · exact ih _ h

theorem foldFix_noop {fp : Str} (vs : List ConventionViolation) (c : Str) (m : Bool)
    (hP : ∀ v ∈ vs, v.vtype = missingPragmaKey → pragmaOnceLit <:+: c)
    (hM : ∀ v ∈ vs, v.vtype = mocIncludeKey → mocIncludeOf fp <:+: c) :
    vs.foldl (fixStep fp) (c, m) = (c, m) := by
  induction vs with
  | nil => rfl
  | cons w ws ih =>
    rw [List.foldl_cons]
    have hw : fixStep fp (c, m) w = (c, m) := by
      by_cases h1 : w.vtype = missingPragmaKey
      · exact fixStep_pragma_of_contains h1 (hP w (List.mem_cons_self w ws) h1)
      · by_cases h2 : w.vtype = mocIncludeKey
        · exact fixStep_moc_of_contains h2 (hM w (List.mem_cons_self w ws) h2)
        · exact fixStep_other h1 h2
    rw [hw]
    exact ih (fun x hx => hP x (List.mem_cons_of_mem w hx))
      (fun x hx => hM x (List.mem_cons_of_mem w hx))

theorem foldFix_snd_true {fp : Str} (vs : List ConventionViolation)
    (st : Str × Bool) (h : st.2 = true) : (vs.foldl (fixStep fp) st).2 = true := by
  induction vs generalizing st with
  | nil => exact h
  | cons v vs' ih =>
    rw [List.foldl_cons]
    apply ih
    simp only [fixStep]
    split
    · rfl
    · exact h

theorem foldFix_of_snd_false {fp : Str} (vs : List ConventionViolation)
    (st : Str × Bool) (h : (vs.foldl (fixStep fp) st).2 = false) :
    vs.foldl (fixStep fp) st = st := by
  induction vs generalizing st with
  | nil => rfl
  | cons v vs' ih =>
    rw [List.foldl_cons] at h ⊢
    have hst : fixStep fp st v = st := by
      by_cases hsucc : (applyConventionFix st.1 v fp).success = true
      · exfalso
        have htrue : (fixStep fp st v).2 = true := by
          simp only [fixStep]
          rw [if_pos hsucc]
        rw [foldFix_snd_true vs' (fixStep fp st v) htrue] at h
        exact absurd h (by simp)
      · simp only [fixStep]
        rw [if_neg hsucc]
    rw [hst] at h ⊢
    exact ih st h

theorem fixStep_pragmaCountGood {fp c : Str} {m : Bool} {v : ConventionViolation}
    (hpm : ¬ pragmaOnceLit <:+: mocIncludeOf fp) (hinc : '\n' ∉ mocIncludeOf fp)
    (h : PragmaCountGood c) : PragmaCountGood (fixStep fp (c, m) v).1 := by
  by_cases h1 : v.vtype = missingPragmaKey
  · by_cases hc : pragmaOnceLit <:+: c
    · rw [fixStep_pragma_of_contains h1 hc]; exact h
    · rw [fixStep_pragma_of_not_contains h1 hc]
      rcases h with ⟨_, h0⟩ | ⟨habs, _⟩
      · refine Or.inr ⟨insertPragma_contains_pragma c, ?_⟩
        rw [count_insertPragma, h0]
        decide
      · exact absurd habs hc
  · by_cases h2 : v.vtype = mocIncludeKey
    · by_cases hc : mocIncludeOf fp <:+: c
      · rw [fixStep_moc_of_contains h2 hc]; exact h
      · rw [fixStep_moc_of_not_contains h2 hc]
        have hcnt : ([mocIncludeOf fp, []] : List Str).count pragmaOnceLit = 0 :=
          count_pair_eq_zero (fun e => mocIncludeOf_ne_pragma fp e.symm) (by decide)
        rcases h with ⟨habs, h0⟩ | ⟨hhas, h1c⟩
        · refine Or.inl ⟨?_, ?_⟩
          · exact not_infix_mocAppend (by decide) (by decide) hinc hpm habs
          · rw [count_mocAppend c (mocIncludeOf fp) pragmaOnceLit hinc, h0, hcnt]
        · refine Or.inr ⟨hhas.trans (List.prefix_append c _).isInfix, ?_⟩
          rw [count_mocAppend c (mocIncludeOf fp) pragmaOnceLit hinc, h1c, hcnt]
    · rw [fixStep_other h1 h2]; exact h

theorem fixStep_mocCountGood {fp c : Str} {m : Bool} {v : ConventionViolation}
    (hinc : '\n' ∉ mocIncludeOf fp) (h : MocCountGood fp c) :
    MocCountGood fp (fixStep fp (c, m) v).1 := by
  by_cases h1 : v.vtype = missingPragmaKey
  · by_cases hc : pragmaOnceLit <:+: c
    · rw [fixStep_pragma_of_contains h1 hc]; exact h
    · rw [fixStep_pragma_of_not_contains h1 hc]
      have hcnt : ([pragmaOnceLit, []] : List Str).count (mocIncludeOf fp) = 0 :=
        count_pair_eq_zero (mocIncludeOf_ne_pragma fp) (mocIncludeOf_ne_nil fp)
      rcases h with ⟨habs, h0⟩ | ⟨hhas, h1c⟩
      · refine Or.inl ⟨?_, ?_⟩
        · exact insertPragma_not_contains (mocIncludeOf_ne_nil fp) hinc
            (not_mocIncludeOf_infix_pragma fp) habs
        · rw [count_insertPragma, h0, hcnt]
      · refine Or.inr ⟨insertPragma_preserves (mocIncludeOf_ne_nil fp) hinc hhas, ?_⟩
        rw [count_insertPragma, h1c, hcnt]
  · by_cases h2 : v.vtype = mocIncludeKey
    · by_cases hc : mocIncludeOf fp <:+: c
      · rw [fixStep_moc_of_contains h2 hc]; exact h
      · rw [fixStep_moc_of_not_contains h2 hc]
        rcases h with ⟨_, h0⟩ | ⟨hhas, _⟩
        · refine Or.inr ⟨?_, ?_⟩
          · exact ((List.infix_cons (List.prefix_append (mocIncludeOf fp) ['\n']).isInfix).trans
              (List.suffix_append c _).isInfix)
          · rw [count_mocAppend c (mocIncludeOf fp) (mocIncludeOf fp) hinc, h0,
              count_pair_self_left (mocIncludeOf_ne_nil fp)]
        · exact absurd hhas hc
    · rw [fixStep_other h1 h2]; exact h

theorem foldFix_pragmaCountGood {fp : Str} (hpm : ¬ pragmaOnceLit <:+: mocIncludeOf fp)
    (hinc : '\n' ∉ mocIncludeOf fp) (vs : List ConventionViolation) (st : Str × Bool)
    (h : PragmaCountGood st.1) : PragmaCountGood (vs.foldl (fixStep fp) st).1 := by
  induction vs generalizing st with
  | nil => exact h
  | cons v vs' ih =>
    rw [List.foldl_cons]
    exact ih (fixStep fp st v) (fixStep_pragmaCountGood hpm hinc h)

theorem foldFix_mocCountGood {fp : Str} (hinc : '\n' ∉ mocIncludeOf fp)
    (vs : List ConventionViolation) (st : Str × Bool) (h : MocCountGood fp st.1) :
    MocCountGood fp (vs.foldl (fixStep fp) st).1 := by
  induction vs generalizing st with
  | nil => exact h
  | cons v vs' ih =>
    rw [List.foldl_cons]
    exact ih (fixStep fp st v) (fixStep_mocCountGood hinc h)

/-!
Unfolding equations for `autoFixConventions` and the claims C9 rests on.
-/
theorem autoFix_of_empty {fs : FS} {p : String} {vs : List ConventionViolation}
    (h : (vs.filter (fun v => v.auto_fixable)).isEmpty = true) :
    autoFixConventions fs p vs = (true, fs) := by
  simp only [autoFixConventions]
  rw [if_pos h]

theorem autoFix_of_noread {fs : FS} {p : String} {vs : List ConventionViolation}
    (hne : ¬ (vs.filter (fun v => v.auto_fixable)).isEmpty = true)
    (hr : fsRead fs p = none) : autoFixConventions fs p vs = (false, fs) := by
  simp only [autoFixConventions]
  rw [if_neg hne, hr]

theorem autoFix_of_read {fs : FS} {p : String} {vs : List ConventionViolation}
    {content : String}
    (hne : ¬ (vs.filter (fun v => v.auto_fixable)).isEmpty = true)
    (hr : fsRead fs p = some content) :
    autoFixConventions fs p vs =
      (if ((vs.filter (fun v => v.auto_fixable)).foldl (fixStep p.data)
            (content.data, false)).2 = true then
        (true, fsWrite fs p (String.mk
          ((vs.filter (fun v => v.auto_fixable)).foldl (fixStep p.data)
            (content.data, false)).1))
      else (true, fs)) := by
  simp only [autoFixConventions]
  rw [if_neg hne, hr]

theorem fsRead_fsWrite (fs : FS) (p c : String) : fsRead (fsWrite fs p c) p = some c := by
  simp [fsRead, fsWrite, List.find?]

/-- A second run of `autoFixConventions` with the same violation list leaves
the file system unchanged, provided the generated include line holds no
newline. -/
theorem autoFix_second_run {fs : FS} {p : String} {vs : List ConventionViolation}
    (hinc : '\n' ∉ mocIncludeOf p.data) :
    (autoFixConventions (autoFixConventions fs p vs).2 p vs).2 =
      (autoFixConventions fs p vs).2 := by
  by_cases hemp : (vs.filter (fun v => v.auto_fixable)).isEmpty = true
  · have h2 : (autoFixConventions fs p vs).2 = fs := by rw [autoFix_of_empty hemp]
    rw [h2]
    exact h2
  · cases hread : fsRead fs p with
    | none =>
      have h2 : (autoFixConventions fs p vs).2 = fs := by
        rw [autoFix_of_noread hemp hread]
      rw [h2]
      exact h2
    | some content =>
      set F := (vs.filter (fun v => v.auto_fixable)).foldl (fixStep p.data)
        (content.data, false) with hF
      by_cases hsnd : F.2 = true
      case neg =>
        have h2 : (autoFixConventions fs p vs).2 = fs := by
          rw [autoFix_of_read hemp hread, ← hF, if_neg hsnd]
        rw [h2]
        exact h2
      case pos =>
        have h2 : (autoFixConventions fs p vs).2 = fsWrite fs p (String.mk F.1) := by
          rw [autoFix_of_read hemp hread, ← hF, if_pos hsnd]
        rw [h2]
        rw [autoFix_of_read hemp (fsRead_fsWrite fs p (String.mk F.1))]
        have hnoop : (vs.filter (fun v => v.auto_fixable)).foldl (fixStep p.data)
            ((String.mk F.1).data, false) = (F.1, false) := by
          have h0 : (String.mk F.1).data = F.1 := rfl
          rw [h0]
          refine foldFix_noop _ F.1 false ?_ ?_
          · intro v hv hty
            rw [hF]
            exact foldFix_establishes_pragma _ _ v hv hty
          · intro v hv hty
            rw [hF]
            exact foldFix_establishes_moc hinc _ _ v hv hty
        rw [hnoop]
        simp

/-- After one run on a file that misses the guard directive, with an
auto-fixable missing-guard violation listed, the written content has exactly
one `#pragma once` line. -/
theorem autoFix_pragma_once {fs : FS} {p : String} {vs : List ConventionViolation}
    {content : String}
    (hinc : '\n' ∉ mocIncludeOf p.data)
    (hpm : ¬ pragmaOnceLit <:+: mocIncludeOf p.data)
    (hr : fsRead fs p = some content)
    (hnc : ¬ pragmaOnceLit <:+: content.data)
    (hex : ∃ v ∈ vs, v.vtype = missingPragmaKey ∧ v.auto_fixable = true) :
    ∃ c1 : String, fsRead (autoFixConventions fs p vs).2 p = some c1 ∧
      (splitLines c1.data).count pragmaOnceLit = 1 := by
  obtain ⟨v, hv, hty, hfix⟩ := hex
  have hvf : v ∈ vs.filter (fun v => v.auto_fixable) := List.mem_filter.mpr ⟨hv, hfix⟩
  have hemp : ¬ (vs.filter (fun v => v.auto_fixable)).isEmpty = true := by
    intro h
    rw [List.isEmpty_iff] at h
    rw [h] at hvf
    exact absurd hvf (List.not_mem_nil v)
  set F := (vs.filter (fun v => v.auto_fixable)).foldl (fixStep p.data)
    (content.data, false) with hF
  have hcont : pragmaOnceLit <:+: F.1 := by
    rw [hF]
    exact foldFix_establishes_pragma _ _ v hvf hty
  have hsnd : F.2 = true := by
    cases hf2 : F.2 with
    | true => rfl
    | false =>
      have hFeq : F = (content.data, false) := by
        rw [hF]
        exact foldFix_of_snd_false _ _ (by rw [← hF]; exact hf2)
      rw [hFeq] at hcont
      exact absurd hcont hnc
  have hgood : PragmaCountGood F.1 := by
    rw [hF]
    exact foldFix_pragmaCountGood hpm hinc _ (content.data, false)
      (Or.inl ⟨hnc, count_zero_of_not_infix hnc⟩)
  have hcount : (splitLines F.1).count pragmaOnceLit = 1 := by
    rcases hgood with ⟨habs, _⟩ | ⟨_, h1⟩
    · exact absurd hcont habs
    · exact h1
  refine ⟨String.mk F.1, ?_, hcount⟩
  rw [autoFix_of_read hemp hr, ← hF, if_pos hsnd]
  exact fsRead_fsWrite fs p (String.mk F.1)

/-- After one run on a file that misses the generated include, with an
auto-fixable missing-include violation listed, the written content has
exactly one include line. -/
theorem autoFix_moc_once {fs : FS} {p : String} {vs : List ConventionViolation}
    {content : String}
    (hinc : '\n' ∉ mocIncludeOf p.data)
    (hr : fsRead fs p = some content)
    (hnc : ¬ mocIncludeOf p.data <:+: content.data)
    (hex : ∃ v ∈ vs, v.vtype = mocIncludeKey ∧ v.auto_fixable = true) :
    ∃ c1 : String, fsRead (autoFixConventions fs p vs).2 p = some c1 ∧
      (splitLines c1.data).count (mocIncludeOf p.data) = 1 := by
  obtain ⟨v, hv, hty, hfix⟩ := hex
  have hvf : v ∈ vs.filter (fun v => v.auto_fixable) := List.mem_filter.mpr ⟨hv, hfix⟩
  have hemp : ¬ (vs.filter (fun v => v.auto_fixable)).isEmpty = true := by
    intro h
    rw [List.isEmpty_iff] at h
    rw [h] at hvf
    exact absurd hvf (List.not_mem_nil v)
  set F := (vs.filter (fun v => v.auto_fixable)).foldl (fixStep p.data)
    (content.data, false) with hF
  have hcont : mocIncludeOf p.data <:+: F.1 := by
    rw [hF]
    exact foldFix_establishes_moc hinc _ _ v hvf hty
  have hsnd : F.2 = true := by
    cases hf2 : F.2 with
    | true => rfl
    | false =>
      have hFeq : F = (content.data, false) := by
        rw [hF]
        exact foldFix_of_snd_false _ _ (by rw [← hF]; exact hf2)
      rw [hFeq] at hcont
      exact absurd hcont hnc
  have hgood : MocCountGood p.data F.1 := by
    rw [hF]
    exact foldFix_mocCountGood hinc _ (content.data, false)
      (Or.inl ⟨hnc, count_zero_of_not_infix hnc⟩)
  have hcount : (splitLines F.1).count (mocIncludeOf p.data) = 1 := by
    rcases hgood with ⟨habs, _⟩ | ⟨_, h1⟩
    · exact absurd hcont habs
    · exact h1
  refine ⟨String.mk F.1, ?_, hcount⟩
  rw [autoFix_of_read hemp hr, ← hF, if_pos hsnd]
  exact fsRead_fsWrite fs p (String.mk F.1)

/-- C9 counterexample: for the file `a\nb.cpp` — whose generated include line
`#include "moc_a\nb.cpp"` spans two lines — running `autoFixConventions` a
second time on the result of the first run changes the file again: inserting
the guard directive breaks the include occurrence that straddled the
insertion point, so the second run appends the include. -/
theorem autoFixConventions_not_idempotent :
    (autoFixConventions (autoFixConventions fsC9 pathC9 vsC9).2 pathC9 vsC9).2 ≠
      (autoFixConventions fsC9 pathC9 vsC9).2 := by
  decide

/-- C9 amended: `autoFixConventions` is idempotent whenever the generated
meta-object include line for the file contains no newline — the case for
every base name without a newline, hence every real path: a second run
leaves the file system unchanged; and one run inserts each missing
auto-fixable directive exactly once (the written content carries exactly one
guard line, respectively one include line; for the guard this additionally
assumes the include line does not itself embed the guard text). -/
theorem autoFixConventions_amended (fs : FS) (p : String)
    (vs : List ConventionViolation) (hinc : '\n' ∉ mocIncludeOf p.data) :
    ((autoFixConventions (autoFixConventions fs p vs).2 p vs).2 =
      (autoFixConventions fs p vs).2) ∧
    (∀ content : String, fsRead fs p = some content →
      ¬ pragmaOnceLit <:+: content.data →
      ¬ pragmaOnceLit <:+: mocIncludeOf p.data →
      (∃ v ∈ vs, v.vtype = missingPragmaKey ∧ v.auto_fixable = true) →
      ∃ c1 : String, fsRead (autoFixConventions fs p vs).2 p = some c1 ∧
        (splitLines c1.data).count pragmaOnceLit = 1) ∧
    (∀ content : String, fsRead fs p = some content →
      ¬ mocIncludeOf p.data <:+: content.data →
      (∃ v ∈ vs, v.vtype = mocIncludeKey ∧ v.auto_fixable = true) →
      ∃ c1 : String, fsRead (autoFixConventions fs p vs).2 p = some c1 ∧
        (splitLines c1.data).count (mocIncludeOf p.data) = 1) :=
  ⟨autoFix_second_run hinc,
    fun _content hr hnc hpm hex => autoFix_pragma_once hinc hpm hr hnc hex,
    fun _content hr hnc hex => autoFix_moc_once hinc hr hnc hex⟩

/-- C9 witness: the amended theorem at the concrete header `w.cpp` missing
its guard, with one auto-fixable missing-guard violation. -/
theorem autoFixConventions_amended_witness :
    ('\n' ∉ mocIncludeOf "w.cpp".data) ∧
    ((autoFixConventions (autoFixConventions fsW "w.cpp" vsW).2 "w.cpp" vsW).2 =
      (autoFixConventions fsW "w.cpp" vsW).2) ∧
    (∃ c1 : String, fsRead (autoFixConventions fsW "w.cpp" vsW).2 "w.cpp" = some c1 ∧
      (splitLines c1.data).count pragmaOnceLit = 1) := by
  have h := autoFixConventions_amended fsW "w.cpp" vsW (by decide)
  refine ⟨by decide, h.1, ?_⟩
  exact h.2.1 "int x;" (by decide) (by decide) (by decide)
    ⟨{ vtype := "missing_pragma_once", suggestion := "s", auto_fixable := true },
      by decide, rfl, rfl⟩
